import Mathlib

/-!
Verification of the brainfuck-rs interpreter (src/lib.rs) against its
natural-language specification.

The Rust source is shallowly embedded as executable Lean definitions:

* `TokenType`, `Token`, `classify`, `eat_first_emptyspace`, `tokenize`
  embed the `Lexer` (lib.rs lines 3-73);
* `NodeType`, `Node`, `Ast`, `peek`, `advance`, `expressionF`, `loopBodyF`,
  `parseLoopTop`, `parse` embed the `Parser` (lib.rs lines 75-223);
* `MState`, `interpWeb`, `interpWebLoop` embed `Interpreter::interpret_web`
  and `Interpreter::interpret_web_loop` (lib.rs lines 285-344);
* `CState`, `interp`, `interpLoop` embed `Interpreter::interpret` and
  `Interpreter::interpret_loop` (lib.rs lines 240-283, 330-334), with
  stdin modelled as a list of input lines and stdout as the returned list;
* `runInterp`, `run` embed the public entry point `run` (lib.rs 349-356).

Machine integers are modelled as `Nat` with explicit `% 256` where the
`u8` cells wrap, and pointer arithmetic follows the source's explicit
wraparound checks.  Partial operations of the source (vector indexing,
`unwrap`, the `panic!` arm of `expression`, integer underflow of `usize`)
are modelled by `Option`, with `none` standing for a panic.  Recursion
that the source expresses as loops/recursive calls which may diverge
(the interpreter) or whose termination is not structurally evident (the
recursive-descent parser) is totalized by a fuel parameter; the fuel is
threaded so that every definition is structurally recursive and hence
kernel-reducible.
-/

/-- Token kinds of the lexer, mirroring `enum TokenType` (lib.rs 3-16). -/
inductive TokenType : Type where
  | IncrementPointer
  | DecrementPointer
  | IncrementValue
  | DecrementValue
  | Output
  | Input
  | LoopStart
  | LoopEnd
  | WhiteSpace
  | Ignore
  | EOF
deriving DecidableEq

/-- A lexer token, mirroring `struct Token` (lib.rs 18-23). -/
structure Token : Type where
  pos : Nat
  kind : TokenType
  lexeme : Char
deriving DecidableEq

/-- Character classification of `Lexer::tokenize` (lib.rs 45-57), the
match over one-character strings, written as the same cascade of
comparisons.  The `"" => EOF` arm of the source applies only to the
synthetic empty fragment produced by `split("")`; it is handled in
`mkToken` below. -/
def classify (c : Char) : TokenType :=
  if c = '>' then TokenType.IncrementPointer
  else if c = '<' then TokenType.DecrementPointer
  else if c = '+' then TokenType.IncrementValue
  else if c = '-' then TokenType.DecrementValue
  else if c = '.' then TokenType.Output
  else if c = ',' then TokenType.Input
  else if c = '[' then TokenType.LoopStart
  else if c = ']' then TokenType.LoopEnd
  else if c = ' ' then TokenType.WhiteSpace
  else TokenType.Ignore

/-- `Lexer::eat_first_emptyspace` (lib.rs 36-41): Rust's
`input.split("")` yields an empty fragment before and after the
characters; the method drops the leading one.  The result is one
one-character fragment per source character plus a trailing empty
fragment, modelled as `some c` per character plus a final `none`. -/
def eat_first_emptyspace (s : List Char) : List (Option Char) :=
  s.map some ++ [none]

/-- The token constructor of `Lexer::tokenize` (lib.rs 59-70): fragment
at enumeration index `i` becomes a token with 1-based `pos = i + 1`; the
empty fragment (and only it) classifies as `EOF` and gets the null
lexeme, every real character keeps itself as the lexeme. -/
def mkToken : Nat × Option Char → Token
  | (i, none) => Token.mk (i + 1) TokenType.EOF (Char.ofNat 0)
  | (i, some c) => Token.mk (i + 1) (classify c) c

/-- `Lexer::tokenize` (lib.rs 43-72): enumerate the fragments of
`eat_first_emptyspace` and map each to a token. -/
def tokenize (s : List Char) : List Token :=
  ((eat_first_emptyspace s).enum).map mkToken

/-- Node kinds of the parser, mirroring `enum NodeType` (lib.rs 75-89). -/
inductive NodeType : Type where
  | CellIncrement
  | CellDecrement
  | PointerIncrement
  | PointerDecrement
  | Output
  | Input
  | Ignore
  | WhiteSpace
  | LoopStart
  | LoopEnd
deriving DecidableEq

/-- A parse-tree node, mirroring `struct Node` (lib.rs 96-101).  The
source stores the loop body as `Option<Box<Ast>>` where `Ast` wraps a
`Vec<Node>`; the box and the wrapper are flattened to
`Option (List Node)`. -/
inductive Node : Type where
  | mk : Token → NodeType → Option (List Node) → Node

/-- The `token` field of a node. -/
def Node.token : Node → Token
  | .mk t _ _ => t

/-- The `kind` field of a node. -/
def Node.kind : Node → NodeType
  | .mk _ k _ => k

/-- The `body` field of a node. -/
def Node.body : Node → Option (List Node)
  | .mk _ _ b => b

/-- The parse root, mirroring `struct Ast` (lib.rs 91-94). -/
structure Ast : Type where
  body : List Node

/-- `Parser::peek` (lib.rs 216-218): read `tokens[current]`; an
out-of-bounds index panics, modelled by `none`. -/
def peek (tokens : List Token) (cur : Nat) : Option Token :=
  tokens.get? cur

/-- `Parser::advance` (lib.rs 204-210): if the lookahead is not `EOF`
the index is incremented, and `previous()` (`tokens[current - 1]`) is
returned.  `previous()` at index 0 underflows `usize` and panics,
modelled by `none`; so is an out-of-bounds read. -/
def advance (tokens : List Token) (cur : Nat) : Option (Token × Nat) :=
  match peek tokens cur with
  | none => none
  | some t =>
    let cur' := if t.kind = TokenType.EOF then cur else cur + 1
    if cur' = 0 then none
    else
      match tokens.get? (cur' - 1) with
      | none => none
      | some tk => some (tk, cur')

/-- One unfolding of `Parser::expression` (lib.rs 128-202), abstracted
over the recursive entry points: `lb` is the loop-body scan of the
`LoopStart` arm (the `while` at lib.rs 167-169 plus the closing
`advance`).  The `_ => panic!` arm (lib.rs 200), reachable only for an
`EOF` token, is modelled by `none`. -/
def expressionF (lb : List Token → Nat → List Node → Option (List Node × Nat))
    (tokens : List Token) (cur : Nat) : Option (Node × Nat) :=
  match advance tokens cur with
  | none => none
  | some (token, cur1) =>
    match token.kind with
    | TokenType.IncrementValue => some (Node.mk token NodeType.CellIncrement none, cur1)
    | TokenType.DecrementValue => some (Node.mk token NodeType.CellDecrement none, cur1)
    | TokenType.IncrementPointer => some (Node.mk token NodeType.PointerIncrement none, cur1)
    | TokenType.DecrementPointer => some (Node.mk token NodeType.PointerDecrement none, cur1)
    | TokenType.Output => some (Node.mk token NodeType.Output none, cur1)
    | TokenType.Input => some (Node.mk token NodeType.Input none, cur1)
    | TokenType.LoopStart =>
      match lb tokens cur1 [] with
      | none => none
      | some (body, cur2) =>
        match advance tokens cur2 with
        | none => none
        | some (_, cur3) => some (Node.mk token NodeType.LoopStart (some body), cur3)
    | TokenType.LoopEnd => some (Node.mk token NodeType.LoopEnd none, cur1)
    | TokenType.WhiteSpace => some (Node.mk token NodeType.WhiteSpace none, cur1)
    | TokenType.Ignore => some (Node.mk token NodeType.Ignore none, cur1)
    | TokenType.EOF => none

/-- One unfolding of the loop-body scan inside `Parser::expression`
(lib.rs 162-169): while the lookahead is neither `EOF` nor `LoopEnd`,
parse an expression and append it to the accumulated body. -/
def loopBodyF (ex : List Token → Nat → Option (Node × Nat))
    (lb : List Token → Nat → List Node → Option (List Node × Nat))
    (tokens : List Token) (cur : Nat) (acc : List Node) : Option (List Node × Nat) :=
  match peek tokens cur with
  | none => none
  | some t =>
    if t.kind = TokenType.EOF ∨ t.kind = TokenType.LoopEnd then some (acc, cur)
    else
      match ex tokens cur with
      | none => none
      | some (n, cur') => lb tokens cur' (acc ++ [n])

/-- The fuelled pair (`expression`, loop-body scan) of the parser.  The
source's mutual recursion terminates because the token index strictly
increases; here every recursive call spends one unit of fuel, keeping
the definition structurally recursive, and `parse` supplies fuel that
is proved sufficient below. -/
def parserFns : Nat →
    ((List Token → Nat → Option (Node × Nat)) ×
     (List Token → Nat → List Node → Option (List Node × Nat)))
  | 0 => (fun _ _ => none, fun _ _ _ => none)
  | Nat.succ f =>
    (expressionF (parserFns f).2, loopBodyF (parserFns f).1 (parserFns f).2)

/-- `Parser::expression` (lib.rs 128-202) at a given fuel. -/
def expression (f : Nat) : List Token → Nat → Option (Node × Nat) :=
  (parserFns f).1

/-- The loop-body scan of `Parser::expression` (lib.rs 162-169) at a
given fuel. -/
def loopBody (f : Nat) : List Token → Nat → List Node → Option (List Node × Nat) :=
  (parserFns f).2

/-- The top-level loop of `Parser::parse` (lib.rs 121-123): while the
lookahead is not `EOF`, parse an expression and push it. -/
def parseLoopTop : Nat → List Token → Nat → List Node → Option (List Node × Nat)
  | 0, _, _, _ => none
  | Nat.succ f, tokens, cur, acc =>
    match peek tokens cur with
    | none => none
    | some t =>
      if t.kind = TokenType.EOF then some (acc, cur)
      else
        match expression f tokens cur with
        | none => none
        | some (n, cur') => parseLoopTop f tokens cur' (acc ++ [n])

/-- `Parser::parse` (lib.rs 116-126), starting at index 0 with an empty
body.  The fuel `2 * tokens.length + 2` is proved sufficient for every
lexer-produced token sequence below. -/
def parse (tokens : List Token) : Option Ast :=
  match parseLoopTop (2 * tokens.length + 2) tokens 0 [] with
  | none => none
  | some (ns, _) => some (Ast.mk ns)

/-- Mutable state of `Interpreter::interpret_web`: the cell tape
(`cells: Vec<u8>`, values kept in `Nat` and reduced `% 256` wherever the
`u8` arithmetic wraps) and the data pointer (lib.rs 225-229). -/
structure MState : Type where
  cells : List Nat
  pointer : Nat
deriving DecidableEq

/-- One unfolding of `Interpreter::interpret_web` (lib.rs 285-328) on an
explicit node list, abstracted over the recursive entry points: `go`
continues with the remaining nodes and `goLoop` is
`Interpreter::interpret_web_loop`.  The accumulated output string is
returned as a list of character codes.  Out-of-bounds indexing and the
`unwrap` of a missing loop body panic, modelled by `none`. -/
def interpWebF (go : List Node → MState → Option (List Nat × MState))
    (goLoop : List Node → MState → Option (List Nat × MState)) :
    List Node → MState → Option (List Nat × MState)
  | [], st => some ([], st)
  | node :: rest, st =>
    match node.kind with
    | NodeType.Ignore => go rest st
    | NodeType.WhiteSpace => go rest st
    | NodeType.LoopEnd => go rest st
    | NodeType.CellIncrement =>
      match st.cells.get? st.pointer with
      | none => none
      | some v => go rest (MState.mk (st.cells.set st.pointer ((v + 1) % 256)) st.pointer)
    | NodeType.CellDecrement =>
      match st.cells.get? st.pointer with
      | none => none
      | some v => go rest (MState.mk (st.cells.set st.pointer ((v + 255) % 256)) st.pointer)
    | NodeType.PointerIncrement =>
      go rest (MState.mk st.cells
        (if st.cells.length ≤ st.pointer + 1 then 0 else st.pointer + 1))
    | NodeType.PointerDecrement =>
      go rest (MState.mk st.cells
        (if st.pointer = 0 then st.cells.length - 1 else st.pointer - 1))
    | NodeType.Output =>
      match st.cells.get? st.pointer with
      | none => none
      | some v =>
        match go rest st with
        | none => none
        | some (o, st') => some ((if v ≠ 0 then [v] else [10]) ++ o, st')
    | NodeType.Input => go rest st
    | NodeType.LoopStart =>
      match node.body with
      | none => none
      | some body =>
        match goLoop body st with
        | none => none
        | some (o1, st1) =>
          match go rest st1 with
          | none => none
          | some (o2, st2) => some (o1 ++ o2, st2)

/-- One unfolding of `Interpreter::interpret_web_loop` (lib.rs 336-344):
while the current cell is nonzero, run the body and append its output. -/
def interpWebLoopF (go : List Node → MState → Option (List Nat × MState))
    (goLoop : List Node → MState → Option (List Nat × MState))
    (body : List Node) (st : MState) : Option (List Nat × MState) :=
  match st.cells.get? st.pointer with
  | none => none
  | some v =>
    if v = 0 then some ([], st)
    else
      match go body st with
      | none => none
      | some (o1, st1) =>
        match goLoop body st1 with
        | none => none
        | some (o2, st2) => some (o1 ++ o2, st2)

/-- The fuelled pair (`interpret_web`, `interpret_web_loop`).  The
source may genuinely diverge (a loop whose cell never reaches zero), so
the embedding spends one unit of fuel on every recursive call; `none`
from exhausted fuel stands for a run that needs more steps. -/
def webFns : Nat →
    ((List Node → MState → Option (List Nat × MState)) ×
     (List Node → MState → Option (List Nat × MState)))
  | 0 => (fun _ _ => none, fun _ _ => none)
  | Nat.succ f => (interpWebF (webFns f).1 (webFns f).2, interpWebLoopF (webFns f).1 (webFns f).2)

/-- `Interpreter::interpret_web` (lib.rs 285-328) at a given fuel. -/
def interpWeb (f : Nat) : List Node → MState → Option (List Nat × MState) :=
  (webFns f).1

/-- `Interpreter::interpret_web_loop` (lib.rs 336-344) at a given fuel. -/
def interpWebLoop (f : Nat) : List Node → MState → Option (List Nat × MState) :=
  (webFns f).2

/-- Mutable state of `Interpreter::interpret` (the command-line
evaluator): the tape and pointer as in `MState`, plus stdin modelled as
the list of remaining input lines (each a list of character codes). -/
structure CState : Type where
  cells : List Nat
  pointer : Nat
  inp : List (List Nat)
deriving DecidableEq

/-- One unfolding of `Interpreter::interpret` (lib.rs 240-283) on an
explicit node list; stdout is returned as a list of character codes
(`print!` of the cell character, or the newline of `println!("")`).
The `Input` arm (lib.rs 268-272) reads one line and stores its first
character; an exhausted stdin or an empty line makes the
`chars().next().unwrap()` panic, modelled by `none`. -/
def interpF (go : List Node → CState → Option (List Nat × CState))
    (goLoop : List Node → CState → Option (List Nat × CState)) :
    List Node → CState → Option (List Nat × CState)
  | [], st => some ([], st)
  | node :: rest, st =>
    match node.kind with
    | NodeType.Ignore => go rest st
    | NodeType.WhiteSpace => go rest st
    | NodeType.LoopEnd => go rest st
    | NodeType.CellIncrement =>
      match st.cells.get? st.pointer with
      | none => none
      | some v => go rest (CState.mk (st.cells.set st.pointer ((v + 1) % 256)) st.pointer st.inp)
    | NodeType.CellDecrement =>
      match st.cells.get? st.pointer with
      | none => none
      | some v => go rest (CState.mk (st.cells.set st.pointer ((v + 255) % 256)) st.pointer st.inp)
    | NodeType.PointerIncrement =>
      go rest (CState.mk st.cells
        (if st.cells.length ≤ st.pointer + 1 then 0 else st.pointer + 1) st.inp)
    | NodeType.PointerDecrement =>
      go rest (CState.mk st.cells
        (if st.pointer = 0 then st.cells.length - 1 else st.pointer - 1) st.inp)
    | NodeType.Output =>
      match st.cells.get? st.pointer with
      | none => none
      | some v =>
        match go rest st with
        | none => none
        | some (o, st') => some ((if v ≠ 0 then [v] else [10]) ++ o, st')
    | NodeType.Input =>
      match st.inp with
      | [] => none
      | line :: restInp =>
        match line with
        | [] => none
        | ch :: _ =>
          go rest (CState.mk (st.cells.set st.pointer (ch % 256)) st.pointer restInp)
    | NodeType.LoopStart =>
      match node.body with
      | none => none
      | some body =>
        match goLoop body st with
        | none => none
        | some (o1, st1) =>
          match go rest st1 with
          | none => none
          | some (o2, st2) => some (o1 ++ o2, st2)

/-- One unfolding of `Interpreter::interpret_loop` (lib.rs 330-334). -/
def interpLoopF (go : List Node → CState → Option (List Nat × CState))
    (goLoop : List Node → CState → Option (List Nat × CState))
    (body : List Node) (st : CState) : Option (List Nat × CState) :=
  match st.cells.get? st.pointer with
  | none => none
  | some v =>
    if v = 0 then some ([], st)
    else
      match go body st with
      | none => none
      | some (o1, st1) =>
        match goLoop body st1 with
        | none => none
        | some (o2, st2) => some (o1 ++ o2, st2)

/-- The fuelled pair (`interpret`, `interpret_loop`). -/
def cliFns : Nat →
    ((List Node → CState → Option (List Nat × CState)) ×
     (List Node → CState → Option (List Nat × CState)))
  | 0 => (fun _ _ => none, fun _ _ => none)
  | Nat.succ f => (interpF (cliFns f).1 (cliFns f).2, interpLoopF (cliFns f).1 (cliFns f).2)

/-- `Interpreter::interpret` (lib.rs 240-283) at a given fuel. -/
def interp (f : Nat) : List Node → CState → Option (List Nat × CState) :=
  (cliFns f).1

/-- `Interpreter::interpret_loop` (lib.rs 330-334) at a given fuel. -/
def interpLoop (f : Nat) : List Node → CState → Option (List Nat × CState) :=
  (cliFns f).2

/-- The freshly initialized interpreter state of `Interpreter::new`
(lib.rs 232-238): 30,000 zeroed cells, pointer 0. -/
def initState : MState :=
  MState.mk (List.replicate 30000 0) 0

/-- The public entry point `run` (lib.rs 349-356) with the final
interpreter state kept: tokenize, parse, then evaluate with
`interpret_web(None)`, which runs the whole `ast.body` from the fresh
state. -/
def runInterp (code : List Char) (fuel : Nat) : Option (List Nat × MState) :=
  match parse (tokenize code) with
  | none => none
  | some ast => interpWeb fuel ast.body initState

/-- The public entry point `run` (lib.rs 349-356): only the produced
output (the returned `String`, as character codes). -/
def run (code : List Char) (fuel : Nat) : Option (List Nat) :=
  match runInterp code fuel with
  | none => none
  | some (o, _) => some o

/-- Direct recursive form of the lexer output, used as a proof-side
normal form of `tokenize`: one token per character, then the `EOF`
token. -/
def tokAux (i : Nat) : List Char → List Token
  | [] => [Token.mk (i + 1) TokenType.EOF (Char.ofNat 0)]
  | c :: cs => Token.mk (i + 1) (classify c) c :: tokAux (i + 1) cs

theorem enumFrom_map_mkToken (s : List Char) :
    ∀ i, ((s.map some ++ [none]).enumFrom i).map mkToken = tokAux i s := by
  induction s with
  | nil => intro i; rfl
  | cons c cs ih =>
    intro i
    simp only [List.map_cons, List.cons_append, List.enumFrom_cons, List.map_cons]
    rw [ih (i + 1)]
    rfl

theorem tokenize_eq_tokAux (s : List Char) : tokenize s = tokAux 0 s := by
  have h := enumFrom_map_mkToken s 0
  simpa [tokenize, eat_first_emptyspace, List.enum] using h

theorem classify_ne_eof (c : Char) : classify c ≠ TokenType.EOF := by
  unfold classify
  split
  · decide
  split
  · decide
  split
  · decide
  split
  · decide
  split
  · decide
  split
  · decide
  split
  · decide
  split
  · decide
  split
  · decide
  · decide

theorem tokAux_length (s : List Char) : ∀ i, (tokAux i s).length = s.length + 1 := by
  induction s with
  | nil => intro i; rfl
  | cons c cs ih => intro i; simp [tokAux, ih (i + 1)]

theorem tokenize_length (s : List Char) : (tokenize s).length = s.length + 1 := by
  rw [tokenize_eq_tokAux]; exact tokAux_length s 0

theorem tokAux_get?_lt (s : List Char) :
    ∀ i j c, s.get? j = some c →
      (tokAux i s).get? j = some (Token.mk (i + j + 1) (classify c) c) := by
  induction s with
  | nil => intro i j c h; simp at h
  | cons d cs ih =>
    intro i j c h
    cases j with
    | zero =>
      simp only [List.get?] at h
      cases h
      rfl
    | succ j =>
      simp only [List.get?] at h
      have := ih (i + 1) j c h
      simp only [tokAux, List.get?]
      rw [this]
      congr 2
      omega

theorem tokAux_get?_last (s : List Char) :
    ∀ i, (tokAux i s).get? s.length =
      some (Token.mk (i + s.length + 1) TokenType.EOF (Char.ofNat 0)) := by
  induction s with
  | nil => intro i; rfl
  | cons d cs ih =>
    intro i
    simp only [tokAux, List.length_cons, List.get?]
    rw [ih (i + 1)]
    congr 2
    omega

theorem tokenize_get?_lt (s : List Char) (j : Nat) (c : Char) (h : s.get? j = some c) :
    (tokenize s).get? j = some (Token.mk (j + 1) (classify c) c) := by
  rw [tokenize_eq_tokAux]
  simpa using tokAux_get?_lt s 0 j c h

theorem tokenize_get?_last (s : List Char) :
    (tokenize s).get? s.length =
      some (Token.mk (s.length + 1) TokenType.EOF (Char.ofNat 0)) := by
  rw [tokenize_eq_tokAux]
  simpa using tokAux_get?_last s 0

theorem tokenize_pos (s : List Char) (j : Nat) (t : Token)
    (h : (tokenize s).get? j = some t) : t.pos = j + 1 := by
  rcases Nat.lt_trichotomy j s.length with hj | hj | hj
  · obtain ⟨c, hc⟩ : ∃ c, s.get? j = some c := ⟨s.get ⟨j, hj⟩, List.get?_eq_get hj⟩
    have := tokenize_get?_lt s j c hc
    rw [this] at h
    cases h
    rfl
  · subst hj
    rw [tokenize_get?_last s] at h
    cases h
    rfl
  · have : (tokenize s).length ≤ j := by rw [tokenize_length]; omega
    rw [List.get?_eq_none.2 this] at h
    cases h

theorem tokenize_eof_iff (s : List Char) (j : Nat) (t : Token)
    (h : (tokenize s).get? j = some t) :
    t.kind = TokenType.EOF ↔ j = (tokenize s).length - 1 := by
  rw [tokenize_length]
  rcases Nat.lt_trichotomy j s.length with hj | hj | hj
  · obtain ⟨c, hc⟩ : ∃ c, s.get? j = some c := ⟨s.get ⟨j, hj⟩, List.get?_eq_get hj⟩
    have := tokenize_get?_lt s j c hc
    rw [this] at h
    cases h
    simp only [Nat.add_sub_cancel]
    constructor
    · intro hk; exact absurd hk (classify_ne_eof c)
    · intro hk; omega
  · subst hj
    rw [tokenize_get?_last s] at h
    cases h
    simp
  · have : (tokenize s).length ≤ j := by rw [tokenize_length]; omega
    rw [List.get?_eq_none.2 this] at h
    cases h

theorem tokAux_filter_lexeme (s : List Char) : ∀ i,
    ((tokAux i s).filter (fun t => t.kind != TokenType.EOF)).map Token.lexeme = s := by
  induction s with
  | nil => intro i; rfl
  | cons c cs ih =>
    intro i
    have hk : ((Token.mk (i + 1) (classify c) c).kind != TokenType.EOF) = true :=
      bne_iff_ne.mpr (classify_ne_eof c)
    simp only [tokAux, List.filter_cons, hk, if_true, List.map_cons, ih (i + 1)]

theorem expression_succ (f : Nat) : expression (Nat.succ f) = expressionF (loopBody f) := rfl

theorem loopBody_succ (f : Nat) :
    loopBody (Nat.succ f) = loopBodyF (expression f) (loopBody f) := rfl

theorem interpWeb_succ (f : Nat) :
    interpWeb (Nat.succ f) = interpWebF (interpWeb f) (interpWebLoop f) := rfl

theorem interpWebLoop_succ (f : Nat) :
    interpWebLoop (Nat.succ f) = interpWebLoopF (interpWeb f) (interpWebLoop f) := rfl

theorem interp_succ (f : Nat) : interp (Nat.succ f) = interpF (interp f) (interpLoop f) := rfl

theorem interpLoop_succ (f : Nat) :
    interpLoop (Nat.succ f) = interpLoopF (interp f) (interpLoop f) := rfl


/-- `advance` at a non-`EOF` lookahead consumes it and returns it. -/
theorem advance_not_eof (tokens : List Token) (cur : Nat) (t : Token)
    (ht : tokens.get? cur = some t) (htk : t.kind ≠ TokenType.EOF) :
    advance tokens cur = some (t, cur + 1) := by
  unfold advance peek
  simp only [ht]
  rw [if_neg htk]
  rw [if_neg (by omega : ¬(cur + 1 = 0))]
  rw [Nat.add_sub_cancel, ht]

/-- `advance` at the `EOF` lookahead does not move and returns the
previous token. -/
theorem advance_eof (tokens : List Token) (cur : Nat) (t tp : Token)
    (ht : tokens.get? cur = some t) (htk : t.kind = TokenType.EOF)
    (hc : cur ≠ 0) (htp : tokens.get? (cur - 1) = some tp) :
    advance tokens cur = some (tp, cur) := by
  unfold advance peek
  simp only [ht]
  rw [if_pos htk]
  rw [if_neg hc]
  rw [htp]

/-- Reduction of `expressionF` once the consumed token is a `LoopStart`. -/
theorem expressionF_loopStart (lb : List Token → Nat → List Node → Option (List Node × Nat))
    (tokens : List Token) (cur : Nat) (tp : Nat) (tl : Char) (cur1 : Nat)
    (h : advance tokens cur = some (Token.mk tp TokenType.LoopStart tl, cur1)) :
    expressionF lb tokens cur =
      match lb tokens cur1 [] with
      | none => none
      | some (body, cur2) =>
        match advance tokens cur2 with
        | none => none
        | some (_, cur3) =>
          some (Node.mk (Token.mk tp TokenType.LoopStart tl) NodeType.LoopStart (some body), cur3) := by
  unfold expressionF
  rw [h]

/-- Reduction of `loopBodyF` once the lookahead is known. -/
theorem loopBodyF_eq (ex : List Token → Nat → Option (Node × Nat))
    (lb : List Token → Nat → List Node → Option (List Node × Nat))
    (tokens : List Token) (cur : Nat) (acc : List Node) (t : Token)
    (h : peek tokens cur = some t) :
    loopBodyF ex lb tokens cur acc =
      if t.kind = TokenType.EOF ∨ t.kind = TokenType.LoopEnd then some (acc, cur)
      else
        match ex tokens cur with
        | none => none
        | some (n, cur') => lb tokens cur' (acc ++ [n]) := by
  unfold loopBodyF
  rw [h]

/-- Reduction of `parseLoopTop` once the lookahead is known. -/
theorem parseLoopTop_eq (f : Nat) (tokens : List Token) (cur : Nat) (acc : List Node)
    (t : Token) (h : peek tokens cur = some t) :
    parseLoopTop (Nat.succ f) tokens cur acc =
      if t.kind = TokenType.EOF then some (acc, cur)
      else
        match expression f tokens cur with
        | none => none
        | some (n, cur') => parseLoopTop f tokens cur' (acc ++ [n]) := by
  conv_lhs => rw [parseLoopTop]
  rw [h]

/-- Joint progress-and-success lemma for `expression` and the loop-body
scan, on a token sequence whose `EOF` tokens sit exactly at the last
index (as every lexer output does).  The fuel bounds `2 * (last - cur)`
and `2 * (last - cur) + 1` are the ones consumed by `parse`'s own
recursion. -/
theorem parserTotalAux (tokens : List Token) (hne : tokens ≠ [])
    (heof : ∀ i t, tokens.get? i = some t →
      (t.kind = TokenType.EOF ↔ i = tokens.length - 1)) :
    ∀ m cur, tokens.length - 1 - cur = m →
      ((cur < tokens.length - 1 →
         ∀ f, 2 * (tokens.length - 1 - cur) ≤ f →
           ∃ n cur', expression f tokens cur = some (n, cur') ∧
             cur < cur' ∧ cur' ≤ tokens.length - 1) ∧
       (cur ≤ tokens.length - 1 →
         ∀ f acc, 2 * (tokens.length - 1 - cur) + 1 ≤ f →
           ∃ ns cur' t, loopBody f tokens cur acc = some (acc ++ ns, cur') ∧
             cur ≤ cur' ∧ cur' ≤ tokens.length - 1 ∧
             tokens.get? cur' = some t ∧
             (t.kind = TokenType.EOF ∨ t.kind = TokenType.LoopEnd))) := by
  have hL : 1 ≤ tokens.length := List.length_pos.mpr hne
  intro m
  induction m using Nat.strong_induction_on with
  | _ m ih =>
    intro cur hm
    have hE : cur < tokens.length - 1 →
        ∀ f, 2 * (tokens.length - 1 - cur) ≤ f →
          ∃ n cur', expression f tokens cur = some (n, cur') ∧
            cur < cur' ∧ cur' ≤ tokens.length - 1 := by
      intro hcur f hf
      have hcurL : cur < tokens.length := by omega
      obtain ⟨t, ht⟩ : ∃ t, tokens.get? cur = some t :=
        ⟨tokens.get ⟨cur, hcurL⟩, List.get?_eq_get hcurL⟩
      have htne : t.kind ≠ TokenType.EOF := by
        intro hk
        have := (heof cur t ht).1 hk
        omega
      obtain ⟨f', rfl⟩ : ∃ f', f = Nat.succ f' := ⟨f - 1, by omega⟩
      obtain ⟨tp, tk, tl⟩ := t
      have hadv : advance tokens cur = some (Token.mk tp tk tl, cur + 1) :=
        advance_not_eof tokens cur (Token.mk tp tk tl) ht htne
      rw [expression_succ]
      cases tk with
      | EOF => exact absurd rfl htne
      | IncrementValue =>
        unfold expressionF
        rw [hadv]
        exact ⟨_, cur + 1, rfl, by omega, by omega⟩
      | DecrementValue =>
        unfold expressionF
        rw [hadv]
        exact ⟨_, cur + 1, rfl, by omega, by omega⟩
      | IncrementPointer =>
        unfold expressionF
        rw [hadv]
        exact ⟨_, cur + 1, rfl, by omega, by omega⟩
      | DecrementPointer =>
        unfold expressionF
        rw [hadv]
        exact ⟨_, cur + 1, rfl, by omega, by omega⟩
      | Output =>
        unfold expressionF
        rw [hadv]
        exact ⟨_, cur + 1, rfl, by omega, by omega⟩
      | Input =>
        unfold expressionF
        rw [hadv]
        exact ⟨_, cur + 1, rfl, by omega, by omega⟩
      | LoopEnd =>
        unfold expressionF
        rw [hadv]
        exact ⟨_, cur + 1, rfl, by omega, by omega⟩
      | WhiteSpace =>
        unfold expressionF
        rw [hadv]
        exact ⟨_, cur + 1, rfl, by omega, by omega⟩
      | Ignore =>
        unfold expressionF
        rw [hadv]
        exact ⟨_, cur + 1, rfl, by omega, by omega⟩
      | LoopStart =>
        rw [expressionF_loopStart (loopBody f') tokens cur tp tl (cur + 1) hadv]
        have hm1 : tokens.length - 1 - (cur + 1) < m := by omega
        have hLB := (ih _ hm1 (cur + 1) rfl).2 (by omega) f' [] (by omega)
        obtain ⟨ns, cur2, t2, hlb, hc2a, hc2b, ht2, ht2k⟩ := hLB
        rw [List.nil_append] at hlb
        rw [hlb]
        rcases ht2k with heq | hle
        · have hc2z : cur2 ≠ 0 := by omega
          have hprevlt : cur2 - 1 < tokens.length := by omega
          obtain ⟨tq, htq⟩ : ∃ tq, tokens.get? (cur2 - 1) = some tq :=
            ⟨tokens.get ⟨cur2 - 1, hprevlt⟩, List.get?_eq_get hprevlt⟩
          simp only [advance_eof tokens cur2 t2 tq ht2 heq hc2z htq]
          exact ⟨_, cur2, rfl, by omega, by omega⟩
        · have ht2ne : t2.kind ≠ TokenType.EOF := by
            rw [hle]
            decide
          have hc2P : cur2 ≠ tokens.length - 1 := by
            intro hk
            exact ht2ne ((heof cur2 t2 ht2).2 hk)
          simp only [advance_not_eof tokens cur2 t2 ht2 ht2ne]
          exact ⟨_, cur2 + 1, rfl, by omega, by omega⟩
    refine ⟨hE, ?_⟩
    intro hcur f acc hf
    have hcurL : cur < tokens.length := by omega
    obtain ⟨t, ht⟩ : ∃ t, tokens.get? cur = some t :=
      ⟨tokens.get ⟨cur, hcurL⟩, List.get?_eq_get hcurL⟩
    obtain ⟨f', rfl⟩ : ∃ f', f = Nat.succ f' := ⟨f - 1, by omega⟩
    rw [loopBody_succ, loopBodyF_eq (expression f') (loopBody f') tokens cur acc t ht]
    by_cases hstop : t.kind = TokenType.EOF ∨ t.kind = TokenType.LoopEnd
    · rw [if_pos hstop]
      exact ⟨[], cur, t, by simp, by omega, by omega, ht, hstop⟩
    · rw [if_neg hstop]
      push_neg at hstop
      have hcurlt : cur < tokens.length - 1 := by
        have : cur ≠ tokens.length - 1 := by
          intro hk
          exact hstop.1 ((heof cur t ht).2 hk)
        omega
      obtain ⟨n, cur1, hex, hlt1, hle1⟩ := hE hcurlt f' (by omega)
      rw [hex]
      have hm1 : tokens.length - 1 - cur1 < m := by omega
      have hLB := (ih _ hm1 cur1 rfl).2 hle1 f' (acc ++ [n]) (by omega)
      obtain ⟨ns', cur2, t2, hlb, hc2a, hc2b, ht2, ht2k⟩ := hLB
      refine ⟨n :: ns', cur2, t2, ?_, by omega, hc2b, ht2, ht2k⟩
      simp only [hlb]
      simp

/-- Success of the top-level loop of `parse` on a well-formed token
sequence: it reaches the final `EOF` index and returns the accumulated
nodes. -/
theorem parseLoopTopTotal (tokens : List Token) (hne : tokens ≠ [])
    (heof : ∀ i t, tokens.get? i = some t →
      (t.kind = TokenType.EOF ↔ i = tokens.length - 1)) :
    ∀ m cur, tokens.length - 1 - cur = m → cur ≤ tokens.length - 1 →
      ∀ f acc, 2 * (tokens.length - 1 - cur) + 1 ≤ f →
        ∃ ns, parseLoopTop f tokens cur acc = some (acc ++ ns, tokens.length - 1) := by
  have hL : 1 ≤ tokens.length := List.length_pos.mpr hne
  intro m
  induction m using Nat.strong_induction_on with
  | _ m ih =>
    intro cur hm hcur f acc hf
    have hcurL : cur < tokens.length := by omega
    obtain ⟨t, ht⟩ : ∃ t, tokens.get? cur = some t :=
      ⟨tokens.get ⟨cur, hcurL⟩, List.get?_eq_get hcurL⟩
    obtain ⟨f', rfl⟩ : ∃ f', f = Nat.succ f' := ⟨f - 1, by omega⟩
    rw [parseLoopTop_eq f' tokens cur acc t ht]
    by_cases hstop : t.kind = TokenType.EOF
    · rw [if_pos hstop]
      have hc : cur = tokens.length - 1 := (heof cur t ht).1 hstop
      refine ⟨[], ?_⟩
      rw [hc]
      simp
    · rw [if_neg hstop]
      have hcurlt : cur < tokens.length - 1 := by
        have : cur ≠ tokens.length - 1 := fun hk => hstop ((heof cur t ht).2 hk)
        omega
      have hEX := (parserTotalAux tokens hne heof (tokens.length - 1 - cur) cur rfl).1
        hcurlt f' (by omega)
      obtain ⟨n, cur1, hex, hlt1, hle1⟩ := hEX
      simp only [hex]
      obtain ⟨ns', hns⟩ :=
        ih (tokens.length - 1 - cur1) (by omega) cur1 rfl hle1 f' (acc ++ [n]) (by omega)
      refine ⟨n :: ns', ?_⟩
      rw [hns]
      simp

theorem tokenize_ne_nil (s : List Char) : tokenize s ≠ [] := by
  intro h
  have := tokenize_length s
  rw [h] at this
  simp at this

/-- The parser succeeds on every lexer output (the totality backbone of
the claims about `parse`). -/
theorem parse_tokenize_total (s : List Char) : ∃ a, parse (tokenize s) = some a := by
  have hne := tokenize_ne_nil s
  have heof := fun i t h => tokenize_eof_iff s i t h
  have hL : 1 ≤ (tokenize s).length := List.length_pos.mpr hne
  obtain ⟨ns, hns⟩ := parseLoopTopTotal (tokenize s) hne heof
    ((tokenize s).length - 1 - 0) 0 rfl (by omega)
    (2 * (tokenize s).length + 2) [] (by omega)
  refine ⟨Ast.mk ns, ?_⟩
  unfold parse
  rw [hns]
  simp

/-- When the token sequence contains no `LoopEnd` token, the loop-body
scan and the top-level loop of `parse` coincide. -/
theorem loopBody_eq_top (tokens : List Token)
    (hnl : ∀ i t, tokens.get? i = some t → t.kind ≠ TokenType.LoopEnd) :
    ∀ f cur acc, loopBody f tokens cur acc = parseLoopTop f tokens cur acc := by
  intro f
  induction f with
  | zero => intro cur acc; rfl
  | succ f ih =>
    intro cur acc
    cases ht : tokens.get? cur with
    | none =>
      rw [loopBody_succ]
      conv_rhs => rw [parseLoopTop]
      unfold loopBodyF peek
      rw [ht]
    | some t =>
      rw [loopBody_succ, loopBodyF_eq (expression f) (loopBody f) tokens cur acc t ht,
        parseLoopTop_eq f tokens cur acc t ht]
      by_cases hk : t.kind = TokenType.EOF
      · rw [if_pos (Or.inl hk), if_pos hk]
      · have hnl' := hnl cur t ht
        rw [if_neg (by tauto), if_neg hk]
        cases hex : expression f tokens cur with
        | none => rfl
        | some p =>
          obtain ⟨n, cur'⟩ := p
          simp only []
          exact ih cur' (acc ++ [n])

theorem set_get_same {α : Type} (l : List α) : ∀ p v, l.get? p = some v → l.set p v = l := by
  induction l with
  | nil => intro p v h; simp at h
  | cons a l ih =>
    intro p v h
    cases p with
    | zero =>
      simp only [List.get?] at h
      cases h
      rfl
    | succ p =>
      simp only [List.get?] at h
      simp [List.set, ih p v h]

/-- Tape-safety invariant of the web evaluator: execution preserves
`pointer < cells.length` and never changes the tape length. -/
theorem webInv (f : Nat) :
    (∀ nodes st r, interpWeb f nodes st = some r → st.pointer < st.cells.length →
      r.2.pointer < r.2.cells.length ∧ r.2.cells.length = st.cells.length) ∧
    (∀ nodes st r, interpWebLoop f nodes st = some r → st.pointer < st.cells.length →
      r.2.pointer < r.2.cells.length ∧ r.2.cells.length = st.cells.length) := by
  induction f with
  | zero =>
    constructor <;> intro nodes st r h _ <;> exact Option.noConfusion h
  | succ f ih =>
    obtain ⟨ih1, ih2⟩ := ih
    constructor
    · intro nodes st r h hp
      cases nodes with
      | nil =>
        rw [interpWeb_succ] at h
        simp only [interpWebF] at h
        cases h
        exact ⟨hp, rfl⟩
      | cons node rest =>
        obtain ⟨tk, k, b⟩ := node
        rw [interpWeb_succ] at h
        cases k with
        | Ignore =>
          simp only [interpWebF, Node.kind] at h
          exact ih1 rest st r h hp
        | WhiteSpace =>
          simp only [interpWebF, Node.kind] at h
          exact ih1 rest st r h hp
        | LoopEnd =>
          simp only [interpWebF, Node.kind] at h
          exact ih1 rest st r h hp
        | Input =>
          simp only [interpWebF, Node.kind] at h
          exact ih1 rest st r h hp
        | CellIncrement =>
          simp only [interpWebF, Node.kind] at h
          cases hget : st.cells.get? st.pointer with
          | none => simp only [hget] at h; exact Option.noConfusion h
          | some v =>
            simp only [hget] at h
            have hres := ih1 rest _ r h (by simpa [List.length_set] using hp)
            simpa [List.length_set] using hres
        | CellDecrement =>
          simp only [interpWebF, Node.kind] at h
          cases hget : st.cells.get? st.pointer with
          | none => simp only [hget] at h; exact Option.noConfusion h
          | some v =>
            simp only [hget] at h
            have hres := ih1 rest _ r h (by simpa [List.length_set] using hp)
            simpa [List.length_set] using hres
        | PointerIncrement =>
          simp only [interpWebF, Node.kind] at h
          have hres := ih1 rest _ r h (by dsimp only; split <;> omega)
          exact hres
        | PointerDecrement =>
          simp only [interpWebF, Node.kind] at h
          have hres := ih1 rest _ r h (by dsimp only; split <;> omega)
          exact hres
        | Output =>
          simp only [interpWebF, Node.kind] at h
          cases hget : st.cells.get? st.pointer with
          | none => simp only [hget] at h; exact Option.noConfusion h
          | some v =>
            simp only [hget] at h
            cases hrec : interpWeb f rest st with
            | none => simp only [hrec] at h; exact Option.noConfusion h
            | some r2 =>
              simp only [hrec] at h
              obtain ⟨o2, st2⟩ := r2
              cases h
              exact ih1 rest st (o2, st2) hrec hp
        | LoopStart =>
          simp only [interpWebF, Node.kind, Node.body] at h
          cases b with
          | none => exact Option.noConfusion h
          | some body =>
            simp only [] at h
            cases hl : interpWebLoop f body st with
            | none => simp only [hl] at h; exact Option.noConfusion h
            | some r1 =>
              simp only [hl] at h
              obtain ⟨o1, st1⟩ := r1
              have h1 := ih2 body st (o1, st1) hl hp
              cases hr : interpWeb f rest st1 with
              | none => simp only [hr] at h; exact Option.noConfusion h
              | some r2 =>
                simp only [hr] at h
                obtain ⟨o2, st2⟩ := r2
                cases h
                have h2 := ih1 rest st1 (o2, st2) hr h1.1
                exact ⟨h2.1, h2.2.trans h1.2⟩
    · intro nodes st r h hp
      rw [interpWebLoop_succ] at h
      simp only [interpWebLoopF] at h
      cases hget : st.cells.get? st.pointer with
      | none => simp only [hget] at h; exact Option.noConfusion h
      | some v =>
        simp only [hget] at h
        by_cases hv : v = 0
        · rw [if_pos hv] at h
          cases h
          exact ⟨hp, rfl⟩
        · rw [if_neg hv] at h
          cases hrec : interpWeb f nodes st with
          | none => simp only [hrec] at h; exact Option.noConfusion h
          | some r1 =>
            simp only [hrec] at h
            obtain ⟨o1, st1⟩ := r1
            have h1 := ih1 nodes st (o1, st1) hrec hp
            cases hl : interpWebLoop f nodes st1 with
            | none => simp only [hl] at h; exact Option.noConfusion h
            | some r2 =>
              simp only [hl] at h
              obtain ⟨o2, st2⟩ := r2
              cases h
              have h2 := ih2 nodes st1 (o2, st2) hl h1.1
              exact ⟨h2.1, h2.2.trans h1.2⟩

/-- Tape-safety invariant of the command-line evaluator, mirroring
`webInv`. -/
theorem cliInv (f : Nat) :
    (∀ nodes st r, interp f nodes st = some r → st.pointer < st.cells.length →
      r.2.pointer < r.2.cells.length ∧ r.2.cells.length = st.cells.length) ∧
    (∀ nodes st r, interpLoop f nodes st = some r → st.pointer < st.cells.length →
      r.2.pointer < r.2.cells.length ∧ r.2.cells.length = st.cells.length) := by
  induction f with
  | zero =>
    constructor <;> intro nodes st r h _ <;> exact Option.noConfusion h
  | succ f ih =>
    obtain ⟨ih1, ih2⟩ := ih
    constructor
    · intro nodes st r h hp
      cases nodes with
      | nil =>
        rw [interp_succ] at h
        simp only [interpF] at h
        cases h
        exact ⟨hp, rfl⟩
      | cons node rest =>
        obtain ⟨tk, k, b⟩ := node
        rw [interp_succ] at h
        cases k with
        | Ignore =>
          simp only [interpF, Node.kind] at h
          exact ih1 rest st r h hp
        | WhiteSpace =>
          simp only [interpF, Node.kind] at h
          exact ih1 rest st r h hp
        | LoopEnd =>
          simp only [interpF, Node.kind] at h
          exact ih1 rest st r h hp
        | Input =>
          simp only [interpF, Node.kind] at h
          cases hinp : st.inp with
          | nil => simp only [hinp] at h; exact Option.noConfusion h
          | cons line restInp =>
            simp only [hinp] at h
            cases line with
            | nil => exact Option.noConfusion h
            | cons ch chs =>
              simp only [] at h
              have hres := ih1 rest _ r h (by simpa [List.length_set] using hp)
              simpa [List.length_set] using hres
        | CellIncrement =>
          simp only [interpF, Node.kind] at h
          cases hget : st.cells.get? st.pointer with
          | none => simp only [hget] at h; exact Option.noConfusion h
          | some v =>
            simp only [hget] at h
            have hres := ih1 rest _ r h (by simpa [List.length_set] using hp)
            simpa [List.length_set] using hres
        | CellDecrement =>
          simp only [interpF, Node.kind] at h
          cases hget : st.cells.get? st.pointer with
          | none => simp only [hget] at h; exact Option.noConfusion h
          | some v =>
            simp only [hget] at h
            have hres := ih1 rest _ r h (by simpa [List.length_set] using hp)
            simpa [List.length_set] using hres
        | PointerIncrement =>
          simp only [interpF, Node.kind] at h
          have hres := ih1 rest _ r h (by dsimp only; split <;> omega)
          exact hres
        | PointerDecrement =>
          simp only [interpF, Node.kind] at h
          have hres := ih1 rest _ r h (by dsimp only; split <;> omega)
          exact hres
        | Output =>
          simp only [interpF, Node.kind] at h
          cases hget : st.cells.get? st.pointer with
          | none => simp only [hget] at h; exact Option.noConfusion h
          | some v =>
            simp only [hget] at h
            cases hrec : interp f rest st with
            | none => simp only [hrec] at h; exact Option.noConfusion h
            | some r2 =>
              simp only [hrec] at h
              obtain ⟨o2, st2⟩ := r2
              cases h
              exact ih1 rest st (o2, st2) hrec hp
        | LoopStart =>
          simp only [interpF, Node.kind, Node.body] at h
          cases b with
          | none => exact Option.noConfusion h
          | some body =>
            simp only [] at h
            cases hl : interpLoop f body st with
            | none => simp only [hl] at h; exact Option.noConfusion h
            | some r1 =>
              simp only [hl] at h
              obtain ⟨o1, st1⟩ := r1
              have h1 := ih2 body st (o1, st1) hl hp
              cases hr : interp f rest st1 with
              | none => simp only [hr] at h; exact Option.noConfusion h
              | some r2 =>
                simp only [hr] at h
                obtain ⟨o2, st2⟩ := r2
                cases h
                have h2 := ih1 rest st1 (o2, st2) hr h1.1
                exact ⟨h2.1, h2.2.trans h1.2⟩
    · intro nodes st r h hp
      rw [interpLoop_succ] at h
      simp only [interpLoopF] at h
      cases hget : st.cells.get? st.pointer with
      | none => simp only [hget] at h; exact Option.noConfusion h
      | some v =>
        simp only [hget] at h
        by_cases hv : v = 0
        · rw [if_pos hv] at h
          cases h
          exact ⟨hp, rfl⟩
        · rw [if_neg hv] at h
          cases hrec : interp f nodes st with
          | none => simp only [hrec] at h; exact Option.noConfusion h
          | some r1 =>
            simp only [hrec] at h
            obtain ⟨o1, st1⟩ := r1
            have h1 := ih1 nodes st (o1, st1) hrec hp
            cases hl : interpLoop f nodes st1 with
            | none => simp only [hl] at h; exact Option.noConfusion h
            | some r2 =>
              simp only [hl] at h
              obtain ⟨o2, st2⟩ := r2
              cases h
              have h2 := ih2 nodes st1 (o2, st2) hl h1.1
              exact ⟨h2.1, h2.2.trans h1.2⟩

theorem interpWeb_nil_eq (f : Nat) (st : MState) :
    interpWeb (Nat.succ f) [] st = some ([], st) := rfl

theorem interpWeb_cellInc_eq (f : Nat) (tk : Token) (b : Option (List Node))
    (rest : List Node) (st : MState) :
    interpWeb (Nat.succ f) (Node.mk tk NodeType.CellIncrement b :: rest) st =
      match st.cells.get? st.pointer with
      | none => none
      | some v =>
        interpWeb f rest (MState.mk (st.cells.set st.pointer ((v + 1) % 256)) st.pointer) := rfl

theorem interpWeb_cellDec_eq (f : Nat) (tk : Token) (b : Option (List Node))
    (rest : List Node) (st : MState) :
    interpWeb (Nat.succ f) (Node.mk tk NodeType.CellDecrement b :: rest) st =
      match st.cells.get? st.pointer with
      | none => none
      | some v =>
        interpWeb f rest (MState.mk (st.cells.set st.pointer ((v + 255) % 256)) st.pointer) := rfl

theorem interpWeb_ptrInc_eq (f : Nat) (tk : Token) (b : Option (List Node))
    (rest : List Node) (st : MState) :
    interpWeb (Nat.succ f) (Node.mk tk NodeType.PointerIncrement b :: rest) st =
      interpWeb f rest
        (MState.mk st.cells (if st.cells.length ≤ st.pointer + 1 then 0 else st.pointer + 1)) := rfl

theorem interpWeb_ptrDec_eq (f : Nat) (tk : Token) (b : Option (List Node))
    (rest : List Node) (st : MState) :
    interpWeb (Nat.succ f) (Node.mk tk NodeType.PointerDecrement b :: rest) st =
      interpWeb f rest
        (MState.mk st.cells (if st.pointer = 0 then st.cells.length - 1 else st.pointer - 1)) := rfl

theorem interpWeb_output_eq (f : Nat) (tk : Token) (b : Option (List Node))
    (rest : List Node) (st : MState) :
    interpWeb (Nat.succ f) (Node.mk tk NodeType.Output b :: rest) st =
      match st.cells.get? st.pointer with
      | none => none
      | some v =>
        match interpWeb f rest st with
        | none => none
        | some (o, st') => some ((if v ≠ 0 then [v] else [10]) ++ o, st') := rfl

theorem interpWeb_input_eq (f : Nat) (tk : Token) (b : Option (List Node))
    (rest : List Node) (st : MState) :
    interpWeb (Nat.succ f) (Node.mk tk NodeType.Input b :: rest) st =
      interpWeb f rest st := rfl

theorem interpWeb_loopStart_eq (f : Nat) (tk : Token) (body : List Node)
    (rest : List Node) (st : MState) :
    interpWeb (Nat.succ f) (Node.mk tk NodeType.LoopStart (some body) :: rest) st =
      match interpWebLoop f body st with
      | none => none
      | some (o1, st1) =>
        match interpWeb f rest st1 with
        | none => none
        | some (o2, st2) => some (o1 ++ o2, st2) := rfl

theorem interpWebLoop_eq (f : Nat) (body : List Node) (st : MState) :
    interpWebLoop (Nat.succ f) body st =
      match st.cells.get? st.pointer with
      | none => none
      | some v =>
        if v = 0 then some ([], st)
        else
          match interpWeb f body st with
          | none => none
          | some (o1, st1) =>
            match interpWebLoop f body st1 with
            | none => none
            | some (o2, st2) => some (o1 ++ o2, st2) := rfl

theorem interp_cellInc_eq (f : Nat) (tk : Token) (b : Option (List Node))
    (rest : List Node) (st : CState) :
    interp (Nat.succ f) (Node.mk tk NodeType.CellIncrement b :: rest) st =
      match st.cells.get? st.pointer with
      | none => none
      | some v =>
        interp f rest (CState.mk (st.cells.set st.pointer ((v + 1) % 256)) st.pointer st.inp) := rfl

theorem interp_cellDec_eq (f : Nat) (tk : Token) (b : Option (List Node))
    (rest : List Node) (st : CState) :
    interp (Nat.succ f) (Node.mk tk NodeType.CellDecrement b :: rest) st =
      match st.cells.get? st.pointer with
      | none => none
      | some v =>
        interp f rest (CState.mk (st.cells.set st.pointer ((v + 255) % 256)) st.pointer st.inp) := rfl

theorem interp_ptrInc_eq (f : Nat) (tk : Token) (b : Option (List Node))
    (rest : List Node) (st : CState) :
    interp (Nat.succ f) (Node.mk tk NodeType.PointerIncrement b :: rest) st =
      interp f rest
        (CState.mk st.cells (if st.cells.length ≤ st.pointer + 1 then 0 else st.pointer + 1)
          st.inp) := rfl

theorem interp_ptrDec_eq (f : Nat) (tk : Token) (b : Option (List Node))
    (rest : List Node) (st : CState) :
    interp (Nat.succ f) (Node.mk tk NodeType.PointerDecrement b :: rest) st =
      interp f rest
        (CState.mk st.cells (if st.pointer = 0 then st.cells.length - 1 else st.pointer - 1)
          st.inp) := rfl

theorem interp_output_eq (f : Nat) (tk : Token) (b : Option (List Node))
    (rest : List Node) (st : CState) :
    interp (Nat.succ f) (Node.mk tk NodeType.Output b :: rest) st =
      match st.cells.get? st.pointer with
      | none => none
      | some v =>
        match interp f rest st with
        | none => none
        | some (o, st') => some ((if v ≠ 0 then [v] else [10]) ++ o, st') := rfl

theorem interpLoop_eq (f : Nat) (body : List Node) (st : CState) :
    interpLoop (Nat.succ f) body st =
      match st.cells.get? st.pointer with
      | none => none
      | some v =>
        if v = 0 then some ([], st)
        else
          match interp f body st with
          | none => none
          | some (o1, st1) =>
            match interpLoop f body st1 with
            | none => none
            | some (o2, st2) => some (o1 ++ o2, st2) := rfl

/-- Running `n + 1` consecutive `CellIncrement` nodes adds `n + 1` to the
current cell modulo 256 and changes nothing else. -/
theorem incs_exec (tk : Token) (b : Option (List Node)) :
    ∀ n f st v, st.cells.get? st.pointer = some v →
      interpWeb (Nat.succ n + Nat.succ f)
          (List.replicate (Nat.succ n) (Node.mk tk NodeType.CellIncrement b)) st =
        some ([], MState.mk (st.cells.set st.pointer ((v + Nat.succ n) % 256)) st.pointer) := by
  intro n
  induction n with
  | zero =>
    intro f st v hget
    rw [show Nat.succ 0 + Nat.succ f = Nat.succ (Nat.succ f) by omega]
    rw [show List.replicate (Nat.succ 0) (Node.mk tk NodeType.CellIncrement b) =
      [Node.mk tk NodeType.CellIncrement b] from rfl]
    rw [interpWeb_cellInc_eq]
    simp only [hget]
    rfl
  | succ n ihn =>
    intro f st v hget
    obtain ⟨hlt, -⟩ := List.get?_eq_some.1 hget
    rw [show Nat.succ (Nat.succ n) + Nat.succ f = Nat.succ (Nat.succ n + Nat.succ f) by omega]
    rw [List.replicate_succ]
    rw [interpWeb_cellInc_eq]
    simp only [hget]
    have hget1 : (st.cells.set st.pointer ((v + 1) % 256)).get? st.pointer =
        some ((v + 1) % 256) := List.get?_set_eq_of_lt _ hlt
    rw [ihn f (MState.mk (st.cells.set st.pointer ((v + 1) % 256)) st.pointer)
      ((v + 1) % 256) hget1]
    rw [List.set_set]
    have hmod : ((v + 1) % 256 + Nat.succ n) % 256 = (v + Nat.succ (Nat.succ n)) % 256 := by
      rw [Nat.mod_add_mod]
      congr 1
      omega
    rw [hmod]

/-- C1 counterexample: the claim says an Output instruction appends the
cell value unconditionally, even when it is zero; but on the program
`"."` (cell value 0) the interpreter emits a newline (code 10), not a
zero byte. -/
theorem c1_zero_cell_newline_counterexample :
    run ['.'] 2 = some [10] ∧ some [10] ≠ some ([0] : List Nat) :=
  ⟨rfl, by decide⟩

/-- C1 (amended): executing an Output node appends one element to the
output: the current cell value when it is nonzero, and a newline
(code 10) when it is zero; the policy is the same in the web evaluator
`interpret_web` and the command-line evaluator `interpret` (and loop
bodies run through these same dispatches). -/
theorem c1_output_policy (f : Nat) (tk : Token) (b : Option (List Node)) (rest : List Node)
    (st : MState) (v : Nat) (hget : st.cells.get? st.pointer = some v) :
    (interpWeb (Nat.succ f) (Node.mk tk NodeType.Output b :: rest) st =
      match interpWeb f rest st with
      | none => none
      | some (o, st') => some ((if v ≠ 0 then [v] else [10]) ++ o, st')) ∧
    (∀ (cst : CState) (w : Nat), cst.cells.get? cst.pointer = some w →
      interp (Nat.succ f) (Node.mk tk NodeType.Output b :: rest) cst =
        match interp f rest cst with
        | none => none
        | some (o, st') => some ((if w ≠ 0 then [w] else [10]) ++ o, st')) := by
  constructor
  · rw [interpWeb_output_eq]
    rw [hget]
  · intro cst w hw
    rw [interp_output_eq]
    rw [hw]

theorem c1_output_policy_witness :
    (interpWeb 1 [Node.mk (Token.mk 1 TokenType.Output '.') NodeType.Output none]
        (MState.mk [0] 0) =
      match interpWeb 0 [] (MState.mk [0] 0) with
      | none => none
      | some (o, st') => some ((if (0 : Nat) ≠ 0 then [(0 : Nat)] else [10]) ++ o, st')) ∧
    (interp 1 [Node.mk (Token.mk 1 TokenType.Output '.') NodeType.Output none]
        (CState.mk [7] 0 []) =
      match interp 0 [] (CState.mk [7] 0 []) with
      | none => none
      | some (o, st') => some ((if (7 : Nat) ≠ 0 then [(7 : Nat)] else [10]) ++ o, st')) := by
  have h := c1_output_policy 0 (Token.mk 1 TokenType.Output '.') none []
    (MState.mk [0] 0) 0 rfl
  exact ⟨h.1, h.2 (CState.mk [7] 0 []) 7 rfl⟩

/-- C2: CellIncrement sets the current cell to `(old + 1) % 256` and
CellDecrement to `(old + 255) % 256` in both evaluators; the arithmetic
always wraps (the step never fails), and 256 consecutive increments
restore the original state exactly. -/
theorem c2_cell_arithmetic (f : Nat) (tk : Token) (b : Option (List Node)) (rest : List Node)
    (st : MState) (v : Nat) (hget : st.cells.get? st.pointer = some v) :
    (interpWeb (Nat.succ f) (Node.mk tk NodeType.CellIncrement b :: rest) st =
       interpWeb f rest (MState.mk (st.cells.set st.pointer ((v + 1) % 256)) st.pointer)) ∧
    (interpWeb (Nat.succ f) (Node.mk tk NodeType.CellDecrement b :: rest) st =
       interpWeb f rest (MState.mk (st.cells.set st.pointer ((v + 255) % 256)) st.pointer)) ∧
    (∀ (cst : CState) (w : Nat), cst.cells.get? cst.pointer = some w →
       interp (Nat.succ f) (Node.mk tk NodeType.CellIncrement b :: rest) cst =
         interp f rest (CState.mk (cst.cells.set cst.pointer ((w + 1) % 256)) cst.pointer
           cst.inp) ∧
       interp (Nat.succ f) (Node.mk tk NodeType.CellDecrement b :: rest) cst =
         interp f rest (CState.mk (cst.cells.set cst.pointer ((w + 255) % 256)) cst.pointer
           cst.inp)) ∧
    (v < 256 →
       interpWeb (256 + Nat.succ f)
           (List.replicate 256 (Node.mk tk NodeType.CellIncrement b)) st =
         some ([], st)) := by
  refine ⟨?_, ?_, ?_, ?_⟩
  · rw [interpWeb_cellInc_eq, hget]
  · rw [interpWeb_cellDec_eq, hget]
  · intro cst w hw
    constructor
    · rw [interp_cellInc_eq, hw]
    · rw [interp_cellDec_eq, hw]
  · intro hv
    have h := incs_exec tk b 255 f st v hget
    rw [show (256 : Nat) + Nat.succ f = Nat.succ 255 + Nat.succ f from rfl]
    rw [show List.replicate 256 (Node.mk tk NodeType.CellIncrement b) =
      List.replicate (Nat.succ 255) (Node.mk tk NodeType.CellIncrement b) from rfl]
    rw [h]
    have hid : (v + Nat.succ 255) % 256 = v := by omega
    rw [hid, set_get_same st.cells st.pointer v hget]

theorem c2_cell_arithmetic_witness :
    (interpWeb 1 [Node.mk (Token.mk 1 TokenType.IncrementValue '+') NodeType.CellIncrement none]
        (MState.mk [5] 0) =
      interpWeb 0 [] (MState.mk ([5].set 0 ((5 + 1) % 256)) 0)) ∧
    (interp 1 [Node.mk (Token.mk 1 TokenType.DecrementValue '-') NodeType.CellDecrement none]
        (CState.mk [9] 0 []) =
      interp 0 [] (CState.mk ([9].set 0 ((9 + 255) % 256)) 0 [])) ∧
    (interpWeb 257
        (List.replicate 256
          (Node.mk (Token.mk 1 TokenType.IncrementValue '+') NodeType.CellIncrement none))
        (MState.mk [5] 0) =
      some ([], MState.mk [5] 0)) := by
  have h1 := c2_cell_arithmetic 0 (Token.mk 1 TokenType.IncrementValue '+') none []
    (MState.mk [5] 0) 5 rfl
  have h2 := c2_cell_arithmetic 0 (Token.mk 1 TokenType.DecrementValue '-') none []
    (MState.mk [5] 0) 5 rfl
  exact ⟨h1.1, (h2.2.2.1 (CState.mk [9] 0 []) 9 rfl).2, h1.2.2.2 (by decide)⟩

/-- C3: every interpreter operation keeps the data pointer strictly
inside the tape and never changes the tape length; pointer increment at
the last index wraps to 0 and pointer decrement at index 0 wraps to the
last index, in both evaluators. -/
theorem c3_pointer_invariant :
    (∀ f nodes st r, interpWeb f nodes st = some r → st.pointer < st.cells.length →
       r.2.pointer < r.2.cells.length ∧ r.2.cells.length = st.cells.length) ∧
    (∀ f nodes st r, interp f nodes st = some r → st.pointer < st.cells.length →
       r.2.pointer < r.2.cells.length ∧ r.2.cells.length = st.cells.length) ∧
    (∀ f tk b rest (st : MState), st.pointer = st.cells.length - 1 → 1 ≤ st.cells.length →
       interpWeb (Nat.succ f) (Node.mk tk NodeType.PointerIncrement b :: rest) st =
         interpWeb f rest (MState.mk st.cells 0)) ∧
    (∀ f tk b rest (st : MState), st.pointer = 0 →
       interpWeb (Nat.succ f) (Node.mk tk NodeType.PointerDecrement b :: rest) st =
         interpWeb f rest (MState.mk st.cells (st.cells.length - 1))) ∧
    (∀ f tk b rest (st : CState), st.pointer = st.cells.length - 1 → 1 ≤ st.cells.length →
       interp (Nat.succ f) (Node.mk tk NodeType.PointerIncrement b :: rest) st =
         interp f rest (CState.mk st.cells 0 st.inp)) ∧
    (∀ f tk b rest (st : CState), st.pointer = 0 →
       interp (Nat.succ f) (Node.mk tk NodeType.PointerDecrement b :: rest) st =
         interp f rest (CState.mk st.cells (st.cells.length - 1) st.inp)) := by
  refine ⟨?_, ?_, ?_, ?_, ?_, ?_⟩
  · intro f; exact (webInv f).1
  · intro f; exact (cliInv f).1
  · intro f tk b rest st hp hL
    rw [interpWeb_ptrInc_eq]
    rw [if_pos (by omega)]
  · intro f tk b rest st hp
    rw [interpWeb_ptrDec_eq]
    rw [if_pos hp]
  · intro f tk b rest st hp hL
    rw [interp_ptrInc_eq]
    rw [if_pos (by omega)]
  · intro f tk b rest st hp
    rw [interp_ptrDec_eq]
    rw [if_pos hp]

theorem c3_pointer_invariant_witness :
    ((MState.mk [0, 0] 0).pointer < (MState.mk [0, 0] 0).cells.length ∧
      (MState.mk [0, 0] 0).cells.length = (MState.mk [0, 0] 1).cells.length) ∧
    (interpWeb 1 [Node.mk (Token.mk 1 TokenType.IncrementPointer '>') NodeType.PointerIncrement
        none] (MState.mk [0, 0] 1) =
      interpWeb 0 [] (MState.mk [0, 0] 0)) ∧
    (interpWeb 1 [Node.mk (Token.mk 1 TokenType.DecrementPointer '<') NodeType.PointerDecrement
        none] (MState.mk [0, 0] 0) =
      interpWeb 0 [] (MState.mk [0, 0] ([0, 0].length - 1))) := by
  refine ⟨?_, ?_, ?_⟩
  · exact c3_pointer_invariant.1 2
      [Node.mk (Token.mk 1 TokenType.IncrementPointer '>') NodeType.PointerIncrement none]
      (MState.mk [0, 0] 1) ([], MState.mk [0, 0] 0) rfl (by decide)
  · exact c3_pointer_invariant.2.2.1 0 (Token.mk 1 TokenType.IncrementPointer '>') none []
      (MState.mk [0, 0] 1) rfl (by decide)
  · exact c3_pointer_invariant.2.2.2.1 0 (Token.mk 1 TokenType.DecrementPointer '<') none []
      (MState.mk [0, 0] 0) rfl

/-- C4: the lexer emits exactly `length source + 1` tokens (one per
character plus the end marker), and the lexemes of the non-`EOF` tokens
concatenate back to the source. -/
theorem c4_lexer_roundtrip (s : List Char) :
    (tokenize s).length = s.length + 1 ∧
    ((tokenize s).filter (fun t => t.kind != TokenType.EOF)).map Token.lexeme = s := by
  refine ⟨tokenize_length s, ?_⟩
  rw [tokenize_eq_tokAux]
  exact tokAux_filter_lexeme s 0

/-- C6: the parser never fails on lexer output: for every source string
the whole pipeline through `parse` produces a tree (all token accesses
stay in bounds and the `panic!` arm is never reached). -/
theorem c6_parse_never_fails (s : List Char) : ∃ a, parse (tokenize s) = some a :=
  parse_tokenize_total s

/-- C7: a loop node re-tests the current cell before every iteration:
with a zero cell the loop exits at once leaving output and state
untouched, and with a nonzero cell it runs the body once and then
repeats, in both evaluators. -/
theorem c7_loop_semantics (f : Nat) (body : List Node) (st : MState) (v : Nat)
    (hget : st.cells.get? st.pointer = some v) :
    (v = 0 → interpWebLoop (Nat.succ f) body st = some ([], st)) ∧
    (v ≠ 0 → interpWebLoop (Nat.succ f) body st =
       match interpWeb f body st with
       | none => none
       | some (o1, st1) =>
         match interpWebLoop f body st1 with
         | none => none
         | some (o2, st2) => some (o1 ++ o2, st2)) ∧
    (∀ (cst : CState) (w : Nat), cst.cells.get? cst.pointer = some w →
       (w = 0 → interpLoop (Nat.succ f) body cst = some ([], cst)) ∧
       (w ≠ 0 → interpLoop (Nat.succ f) body cst =
          match interp f body cst with
          | none => none
          | some (o1, st1) =>
            match interpLoop f body st1 with
            | none => none
            | some (o2, st2) => some (o1 ++ o2, st2))) := by
  refine ⟨?_, ?_, ?_⟩
  · intro hv
    subst hv
    rw [interpWebLoop_eq]
    simp only [hget]
    simp
  · intro hv
    rw [interpWebLoop_eq]
    simp only [hget]
    rw [if_neg hv]
  · intro cst w hw
    constructor
    · intro hw0
      subst hw0
      rw [interpLoop_eq]
      simp only [hw]
      simp
    · intro hw0
      rw [interpLoop_eq]
      simp only [hw]
      rw [if_neg hw0]

theorem c7_loop_semantics_witness :
    (interpWebLoop 1 [] (MState.mk [0] 0) = some ([], MState.mk [0] 0)) ∧
    (interpWebLoop 1 [] (MState.mk [3] 0) =
       match interpWeb 0 [] (MState.mk [3] 0) with
       | none => none
       | some (o1, st1) =>
         match interpWebLoop 0 [] st1 with
         | none => none
         | some (o2, st2) => some (o1 ++ o2, st2)) ∧
    (interpLoop 1 [] (CState.mk [0] 0 []) = some ([], CState.mk [0] 0 [])) := by
  have h0 := c7_loop_semantics 0 [] (MState.mk [0] 0) 0 rfl
  have h3 := c7_loop_semantics 0 [] (MState.mk [3] 0) 3 rfl
  exact ⟨h0.1 rfl, h3.2.1 (by decide),
    (h0.2.2 (CState.mk [0] 0 []) 0 rfl).1 rfl⟩

/-- C8 counterexample: the claim says the synthetic end marker carries
position 0; in fact the lexer gives it position `length source + 1`
(here 2 for the one-character source `"+"`). -/
theorem c8_eof_position_counterexample :
    ((tokenize ['+']).get? 1).map Token.kind = some TokenType.EOF ∧
    ((tokenize ['+']).get? 1).map Token.pos = some 2 ∧ (2 : Nat) ≠ 0 :=
  ⟨rfl, rfl, by decide⟩

/-- C8 (amended): every token of one scan (the end marker included)
carries the 1-based position `index + 1`; the end marker's position is
`length source + 1`; positions are strictly increasing across the
output. -/
theorem c8_positions (s : List Char) :
    (∀ j t, (tokenize s).get? j = some t → t.pos = j + 1) ∧
    ((tokenize s).get? s.length =
      some (Token.mk (s.length + 1) TokenType.EOF (Char.ofNat 0))) ∧
    (∀ i j ti tj, (tokenize s).get? i = some ti → (tokenize s).get? j = some tj →
      i < j → ti.pos < tj.pos) := by
  refine ⟨tokenize_pos s, tokenize_get?_last s, ?_⟩
  intro i j ti tj hi hj hij
  rw [tokenize_pos s i ti hi, tokenize_pos s j tj hj]
  omega

theorem c8_positions_witness :
    (Token.mk 1 TokenType.IncrementValue '+').pos = 0 + 1 ∧
    (tokenize ['+']).get? 1 = some (Token.mk 2 TokenType.EOF (Char.ofNat 0)) ∧
    (Token.mk 1 TokenType.IncrementValue '+').pos <
      (Token.mk 2 TokenType.EOF (Char.ofNat 0)).pos := by
  refine ⟨(c8_positions ['+']).1 0 (Token.mk 1 TokenType.IncrementValue '+') rfl,
    (c8_positions ['+']).2.1, ?_⟩
  exact (c8_positions ['+']).2.2 0 1 (Token.mk 1 TokenType.IncrementValue '+')
    (Token.mk 2 TokenType.EOF (Char.ofNat 0)) rfl rfl (by decide)

/-- C9: running the entry point on the empty source yields empty output
and the final state is the fresh one: 30,000 zero cells with the
pointer at 0. -/
theorem c9_empty_source (f : Nat) :
    runInterp [] (Nat.succ f) = some ([], initState) ∧
    run [] (Nat.succ f) = some [] ∧
    initState.pointer = 0 ∧
    (∀ v ∈ initState.cells, v = 0) := by
  have hparse : parse (tokenize []) = some (Ast.mk []) := rfl
  refine ⟨?_, ?_, rfl, ?_⟩
  · unfold runInterp
    rw [hparse]
    rfl
  · unfold run runInterp
    rw [hparse]
    rfl
  · intro v hv
    exact List.eq_of_mem_replicate hv

theorem c9_empty_source_witness :
    runInterp [] 1 = some ([], initState) ∧
    run [] 1 = some [] ∧
    initState.pointer = 0 ∧
    (0 : Nat) = 0 := by
  have h := c9_empty_source 0
  exact ⟨h.1, h.2.1, h.2.2.1,
    h.2.2.2 0 (List.mem_replicate.mpr ⟨by decide, rfl⟩)⟩

/-- C10: in the web evaluator (the one `run` uses) an Input node is a
complete no-op — cells, pointer and output are untouched and execution
never fails there; a whole program consisting of one Input instruction
produces empty output. -/
theorem c10_input_noop (f : Nat) (tk : Token) (b : Option (List Node)) (rest : List Node)
    (st : MState) :
    (interpWeb (Nat.succ f) (Node.mk tk NodeType.Input b :: rest) st = interpWeb f rest st) ∧
    run [','] 2 = some [] :=
  ⟨rfl, rfl⟩

theorem tokenize_no_loopEnd (s : List Char) (hs : ∀ c ∈ s, classify c ≠ TokenType.LoopEnd) :
    ∀ i t, (tokenize s).get? i = some t → t.kind ≠ TokenType.LoopEnd := by
  intro i t h
  rcases Nat.lt_trichotomy i s.length with hi | hi | hi
  · obtain ⟨c, hc⟩ : ∃ c, s.get? i = some c := ⟨s.get ⟨i, hi⟩, List.get?_eq_get hi⟩
    rw [tokenize_get?_lt s i c hc] at h
    cases h
    exact hs c (List.get?_mem hc)
  · subst hi
    rw [tokenize_get?_last s] at h
    cases h
    exact fun hk => TokenType.noConfusion hk
  · rw [List.get?_eq_none.2 (by rw [tokenize_length]; omega)] at h
    cases h

/-- C5: a source that opens a loop never closed before end of input is
accepted: the parse succeeds, the loop is silently closed at end of
input, and its body is exactly the node sequence parsed from everything
after the open bracket (the loop-body scan from index 1, which under
the no-`LoopClose` hypothesis coincides with the top-level scan). -/
theorem c5_unterminated_loop (cs : List Char)
    (hcs : ∀ c ∈ cs, classify c ≠ TokenType.LoopEnd) :
    ∃ ns p,
      parseLoopTop (2 * (tokenize ('[' :: cs)).length) (tokenize ('[' :: cs)) 1 [] =
        some (ns, p) ∧
      parse (tokenize ('[' :: cs)) =
        some (Ast.mk [Node.mk (Token.mk 1 TokenType.LoopStart '[') NodeType.LoopStart
          (some ns)]) := by
  have hne := tokenize_ne_nil ('[' :: cs)
  have heof := fun i t h => tokenize_eof_iff ('[' :: cs) i t h
  have hlen : (tokenize ('[' :: cs)).length = cs.length + 2 := by
    rw [tokenize_length]
    simp
  have hnl : ∀ i t, (tokenize ('[' :: cs)).get? i = some t → t.kind ≠ TokenType.LoopEnd := by
    apply tokenize_no_loopEnd
    intro c hc
    rcases List.mem_cons.1 hc with h | h
    · subst h
      decide
    · exact hcs c h
  have h0 : (tokenize ('[' :: cs)).get? 0 = some (Token.mk 1 TokenType.LoopStart '[') :=
    tokenize_get?_lt ('[' :: cs) 0 '[' rfl
  have hadv0 : advance (tokenize ('[' :: cs)) 0 = some (Token.mk 1 TokenType.LoopStart '[', 1) :=
    advance_not_eof _ 0 _ h0 (by decide)
  obtain ⟨ns, cur2, t2, hlb, hc2a, hc2b, ht2, ht2k⟩ :=
    (parserTotalAux (tokenize ('[' :: cs)) hne heof
      ((tokenize ('[' :: cs)).length - 1 - 1) 1 rfl).2
      (by omega) (2 * (tokenize ('[' :: cs)).length) [] (by omega)
  rw [List.nil_append] at hlb
  have ht2e : t2.kind = TokenType.EOF := by
    rcases ht2k with h | h
    · exact h
    · exact absurd h (hnl cur2 t2 ht2)
  have hc2P : cur2 = (tokenize ('[' :: cs)).length - 1 := (heof cur2 t2 ht2).1 ht2e
  have hc2z : cur2 ≠ 0 := by omega
  obtain ⟨tq, htq⟩ : ∃ tq, (tokenize ('[' :: cs)).get? (cur2 - 1) = some tq :=
    ⟨(tokenize ('[' :: cs)).get ⟨cur2 - 1, by omega⟩, List.get?_eq_get (by omega)⟩
  have hadv2 : advance (tokenize ('[' :: cs)) cur2 = some (tq, cur2) :=
    advance_eof _ cur2 t2 tq ht2 ht2e hc2z htq
  refine ⟨ns, cur2, ?_, ?_⟩
  · rw [← loopBody_eq_top (tokenize ('[' :: cs)) hnl (2 * (tokenize ('[' :: cs)).length) 1 []]
    exact hlb
  · unfold parse
    rw [show 2 * (tokenize ('[' :: cs)).length + 2 =
      Nat.succ (2 * (tokenize ('[' :: cs)).length + 1) from rfl]
    rw [parseLoopTop_eq _ _ 0 [] _ h0]
    rw [if_neg (by decide)]
    rw [show 2 * (tokenize ('[' :: cs)).length + 1 =
      Nat.succ (2 * (tokenize ('[' :: cs)).length) from rfl]
    rw [expression_succ]
    rw [expressionF_loopStart (loopBody (2 * (tokenize ('[' :: cs)).length))
      (tokenize ('[' :: cs)) 0 1 '[' 1 hadv0]
    rw [hlb]
    simp only [hadv2, List.nil_append]
    rw [parseLoopTop_eq (2 * (tokenize ('[' :: cs)).length) (tokenize ('[' :: cs)) cur2
      [Node.mk (Token.mk 1 TokenType.LoopStart '[') NodeType.LoopStart (some ns)] t2 ht2]
    rw [if_pos ht2e]

theorem c5_unterminated_loop_witness :
    ∃ ns p,
      parseLoopTop (2 * (tokenize ['[']).length) (tokenize ['[']) 1 [] = some (ns, p) ∧
      parse (tokenize ['[']) =
        some (Ast.mk [Node.mk (Token.mk 1 TokenType.LoopStart '[') NodeType.LoopStart
          (some ns)]) :=
  c5_unterminated_loop [] (by intro c hc; cases hc)
